/-
Verification of the PoliTopics summarization pipeline core.

Shallow embedding of the TypeScript sources:
  * greedy packer (packing.ts: buildOrderLen / packIndexSetsByGreedy)
  * dialog builder (pipeline: getSpeechNumericOrder / sortSpeeches / buildDialogs)
  * parallel tree reducer (reduceMiddleSummaries)
  * rate limiting (TokenBucket / DayCounter / BudgetManager / RpsLimiter)
  * budget middleware (withBudget pre-reservation and reconciliation)
  * Gemini client retry/backoff and generateObject parse handling

JavaScript numbers are embedded as Int (lengths, thresholds, epoch
milliseconds) or Rat (fractional token levels, refill rates, jitter),
exact for the integral values the pipeline manipulates.  Asynchronous
blocking loops are embedded as step functions iterated over an explicit
list of observation times; `none` models "the loop has not returned yet".
-/
import Mathlib

namespace PoliTopics

/-! ### Data model (interfaces/Article.ts) -/

/-- One atomic utterance record (interface Dialog). -/
structure Dialog where
  order : Int
  speaker : String
  speaker_group : String
  speaker_position : String
  speaker_role : String
  original_text : String
  summary : String
  soft_language : String
deriving Repr, DecidableEq

/-- interface MiddleSummary (same shape as Summary / SoftSummary). -/
structure MiddleSummary where
  based_on_orders : List Int
  summary : String
deriving Repr, DecidableEq

/-- interface Keyword. -/
structure Keyword where
  keyword : String
  priority : String
deriving Repr, DecidableEq

/-! ### Greedy packer (packing.ts) -/

/-- interface OrderLen: `{idx, order, len}`. -/
structure OrderLen where
  idx : Nat
  order : Int
  len : Int
deriving Repr, DecidableEq

/-- interface IndexPack: `{indices, orders, totalLen, oversized?}`.
The optional `oversized` flag (absent = false in JS) is a Bool. -/
structure IndexPack where
  indices : List Nat
  orders : List Int
  totalLen : Int
  oversized : Bool
deriving Repr, DecidableEq

/-- `buildOrderLen`: map each dialog to its (idx, order, len) row,
keeping array order.  `d?.original_text?.length ?? 0` is the string
length (never null in the model). -/
def buildOrderLen (dialogs : List Dialog) : List OrderLen :=
  dialogs.enum.map fun p => ⟨p.1, p.2.order, (p.2.original_text.length : Int)⟩

/-- The fresh running pack `{ indices: [], orders: [], totalLen: 0 }`. -/
def emptyPack : IndexPack := ⟨[], [], 0, false⟩

/-- The loop body of `packIndexSetsByGreedy`: iterate the list with the
running pack `cur`; `pushCur` (emit `cur` when non-empty) is inlined at
each flush point exactly as in the source. -/
def packGo (t : Int) : List OrderLen → IndexPack → List IndexPack
  | [], cur => if cur.indices.isEmpty then [] else [cur]
  | item :: rest, cur =>
    if t < item.len then
      -- oversized: flush cur, emit a dedicated oversized pack, reset cur
      (if cur.indices.isEmpty then [] else [cur]) ++
        ⟨[item.idx], [item.order], item.len, true⟩ :: packGo t rest emptyPack
    else if t < cur.totalLen + item.len ∧ cur.indices ≠ [] then
      -- would overflow: flush cur, then start a new pack with the item
      cur :: packGo t rest ⟨[item.idx], [item.order], item.len, false⟩
    else
      packGo t rest ⟨cur.indices ++ [item.idx], cur.orders ++ [item.order],
        cur.totalLen + item.len, false⟩

/-- `packIndexSetsByGreedy(orderLenList, charThreshold)`: throws when the
threshold is not a positive (finite) number, else runs the greedy pass.
The thrown `Error` is an `Except.error`; Int thresholds are always
finite, so only the sign check remains of `!Number.isFinite || <= 0`. -/
def packIndexSetsByGreedy (orderLenList : List OrderLen) (charThreshold : Int) :
    Except String (List IndexPack) :=
  if charThreshold ≤ 0 then
    .error "charThreshold must be a positive number"
  else
    .ok (packGo charThreshold orderLenList emptyPack)

lemma packGo_join (t : Int) :
    ∀ (l : List OrderLen) (cur : IndexPack),
      ((packGo t l cur).map IndexPack.indices).flatten =
        cur.indices ++ l.map OrderLen.idx := by
  intro l
  induction l with
  | nil =>
    intro cur
    by_cases h : cur.indices.isEmpty
    · simp [packGo, h, List.isEmpty_iff.mp h]
    · simp [packGo, h]
  | cons item rest ih =>
    intro cur
    by_cases h1 : t < item.len
    · by_cases h2 : cur.indices.isEmpty
      · simp [packGo, h1, h2, ih, emptyPack, List.isEmpty_iff.mp h2]
      · simp [packGo, h1, h2, ih, emptyPack]
    · by_cases h2 : t < cur.totalLen + item.len ∧ cur.indices ≠ []
      · simp [packGo, h1, h2, ih]
      · simp [packGo, h1, h2, ih]

lemma packGo_bounds (t : Int) (ht : 0 < t) :
    ∀ (l : List OrderLen) (cur : IndexPack),
      cur.oversized = false → cur.totalLen ≤ t →
      (cur.indices = [] → cur.totalLen = 0) →
      ∀ p ∈ packGo t l cur,
        (p.oversized = false → p.totalLen ≤ t) ∧
        (p.oversized = true → p.indices.length = 1 ∧ t < p.totalLen) := by
  intro l
  induction l with
  | nil =>
    intro cur hov hle _ p hp
    by_cases h : cur.indices.isEmpty
    · simp [packGo, h] at hp
    · simp [packGo, h] at hp
      subst hp
      exact ⟨fun _ => hle, fun habs => by simp [hov] at habs⟩
  | cons item rest ih =>
    intro cur hov hle hemp p hp
    by_cases h1 : t < item.len
    · simp only [packGo, if_pos h1] at hp
      rcases List.mem_append.mp hp with hcur | htail
      · by_cases h2 : cur.indices.isEmpty
        · simp [h2] at hcur
        · simp [h2] at hcur
          subst hcur
          exact ⟨fun _ => hle, fun habs => by simp [hov] at habs⟩
      · rcases List.mem_cons.mp htail with hover | hrec
        · subst hover
          exact ⟨fun habs => by simp at habs, fun _ => ⟨rfl, h1⟩⟩
        · exact ih emptyPack rfl (le_of_lt ht) (fun _ => rfl) p hrec
    · by_cases h2 : t < cur.totalLen + item.len ∧ cur.indices ≠ []
      · simp only [packGo, if_neg h1, if_pos h2] at hp
        rcases List.mem_cons.mp hp with hcur | hrec
        · subst hcur
          exact ⟨fun _ => hle, fun habs => by simp [hov] at habs⟩
        · exact ih _ rfl (not_lt.mp h1) (fun habs => by simp at habs) p hrec
      · simp only [packGo, if_neg h1, if_neg h2] at hp
        refine ih _ rfl ?_ (fun habs => by simp at habs) p hp
        rcases Decidable.not_and_iff_or_not.mp h2 with hfit | hempty
        · exact not_lt.mp hfit
        · have : cur.indices = [] := Decidable.not_not.mp hempty
          have h0 : cur.totalLen = 0 := hemp this
          rw [h0, zero_add]
          exact not_lt.mp h1

/-- C1.  For every OrderLen list whose `idx` column is exactly `0..N-1`
(as produced by `buildOrderLen`), every non-negative length column and
every positive threshold, the greedy packer succeeds and returns packs
such that: a pack not marked oversized has `totalLen ≤ threshold`; an
oversized pack holds exactly one item whose length alone exceeds the
threshold; and the concatenation of all packs' indices, in pack order,
is exactly `0..N-1` (no index missing or duplicated). -/
theorem packIndexSetsByGreedy_partition (ol : List OrderLen) (t : Int)
    (hlen : ∀ x ∈ ol, 0 ≤ x.len) (ht : 0 < t)
    (hidx : ol.map OrderLen.idx = List.range ol.length) :
    ∃ packs, packIndexSetsByGreedy ol t = .ok packs ∧
      (∀ p ∈ packs, p.oversized = false → p.totalLen ≤ t) ∧
      (∀ p ∈ packs, p.oversized = true → p.indices.length = 1 ∧ t < p.totalLen) ∧
      ((packs.map IndexPack.indices).flatten = List.range ol.length) := by
  refine ⟨packGo t ol emptyPack, ?_, ?_, ?_, ?_⟩
  · simp [packIndexSetsByGreedy, not_le.mpr ht]
  · intro p hp
    exact (packGo_bounds t ht ol emptyPack rfl (le_of_lt ht) (fun _ => rfl) p hp).1
  · intro p hp
    exact (packGo_bounds t ht ol emptyPack rfl (le_of_lt ht) (fun _ => rfl) p hp).2
  · rw [packGo_join, ← hidx]
    rfl

/-- Witness for C1 at a concrete input: three items of lengths 3, 9, 4
with threshold 5; the middle item is oversized. -/
theorem packIndexSetsByGreedy_partition_witness :
    ∃ packs,
      packIndexSetsByGreedy [⟨0, 1, 3⟩, ⟨1, 2, 9⟩, ⟨2, 3, 4⟩] 5 = .ok packs ∧
      (∀ p ∈ packs, p.oversized = false → p.totalLen ≤ 5) ∧
      (∀ p ∈ packs, p.oversized = true → p.indices.length = 1 ∧ 5 < p.totalLen) ∧
      ((packs.map IndexPack.indices).flatten = List.range 3) :=
  packIndexSetsByGreedy_partition [⟨0, 1, 3⟩, ⟨1, 2, 9⟩, ⟨2, 3, 4⟩] 5
    (by decide) (by decide) (by decide)

/-! ### Dialog builder (pipeline: getSpeechNumericOrder / sortSpeeches /
buildDialogs).  `RawSpeechRecord` fields accessed with `?.` / `??` in the
source are Options. -/

/-- Raw utterance record (interface RawSpeechRecord), restricted to the
fields the dialog builder reads. -/
structure RawSpeechRecord where
  speechID : Option String
  speechOrder : Option Int
  speaker : Option String
  speakerGroup : Option String
  speakerPosition : Option String
  speakerRole : Option String
  speech : Option String
deriving Repr, DecidableEq

/-- Raw meeting record, restricted to the field `buildDialogs` reads. -/
structure RawMeetingRecord where
  speechRecord : List RawSpeechRecord
deriving Repr, DecidableEq

/-- JavaScript `str.split(sep)` for a one-character separator, on the
character list of the string. -/
def splitOnChar (sep : Char) : List Char → List (List Char)
  | [] => [[]]
  | c :: rest =>
    let r := splitOnChar sep rest
    if c = sep then [] :: r
    else
      match r with
      | [] => [[c]]
      | h :: tl => (c :: h) :: tl

/-- JavaScript `Number(str)` restricted to the canonical non-negative
decimal strings that speech identifiers carry: all-digit non-empty
strings parse to their value, anything else is NaN (`none`). -/
def decDigitsToNat (l : List Char) : Option Nat :=
  if l ≠ [] ∧ l.all Char.isDigit then
    some (l.foldl (fun acc c => acc * 10 + (c.toNat - 48)) 0)
  else none

/-- `s.speechID?.split("_")[1]` parsed with `Number`: the numeric value
of the part after the first underscore, when present and numeric.  The
JS truthiness guard `idPart ? Number(idPart) : NaN` rejects the empty
string, which `decDigitsToNat` also maps to `none`. -/
def speechIdSuffixNum (s : RawSpeechRecord) : Option Nat :=
  match s.speechID with
  | none => none
  | some id => ((splitOnChar '_' id.data)[1]?).bind decDigitsToNat

/-- `getSpeechNumericOrder(s, idx)`: numeric suffix of the speechID,
else the explicit `speechOrder`, else `idx + 1`. -/
def getSpeechNumericOrder (s : RawSpeechRecord) (idx : Nat) : Int :=
  match speechIdSuffixNum s with
  | some v => (v : Int)
  | none =>
    match s.speechOrder with
    | some o => o
    | none => (idx : Int) + 1

/-- The comparator key used by `sortSpeeches`: both comparator calls pass
`idx = 0`, so the positional fallback inside the sort is the constant 1. -/
def sortKey (s : RawSpeechRecord) : Int := getSpeechNumericOrder s 0

/-- `sortSpeeches(raw)`: `[...raw.speechRecord].sort((a, b) => ao - bo)`.
JavaScript's sort is stable and orders ascending by the comparator;
embedded as a stable insertion sort by `sortKey`. -/
def sortSpeeches (raw : RawMeetingRecord) : List RawSpeechRecord :=
  List.insertionSort (fun a b => sortKey a ≤ sortKey b) raw.speechRecord

/-- `toDialog(s, order)`: copy fields with `?? ""` defaults, empty
summary fields. -/
def toDialog (s : RawSpeechRecord) (order : Int) : Dialog :=
  { order := order
    speaker := s.speaker.getD ""
    speaker_group := s.speakerGroup.getD ""
    speaker_position := s.speakerPosition.getD ""
    speaker_role := s.speakerRole.getD ""
    original_text := s.speech.getD ""
    summary := ""
    soft_language := "" }

/-- `buildDialogs(raw)`: sort, then assign each speech the order resolved
at its position in the *sorted* list. -/
def buildDialogs (raw : RawMeetingRecord) : List Dialog :=
  (sortSpeeches raw).enum.map fun p => toDialog p.2 (getSpeechNumericOrder p.2 p.1)

/-- A speech record with only a speechID, as in the counterexample. -/
def speechOfId (id : String) : RawSpeechRecord :=
  ⟨some id, none, none, none, none, none, none⟩

/-- Counterexample to C2: `buildDialogs` output is not sorted ascending
by resolved order.  With speeches `a_0` (suffix 0), `b` (no suffix, no
speechOrder) and `c_1` (suffix 1), the comparator resolves `b` with the
constant index 0 (key 1) so the stable sort leaves the order `[a_0, b,
c_1]`; `buildDialogs` then resolves `b` at sorted position 1, giving it
order 2, and the resulting order column is `[0, 2, 1]` — not ascending.
(The final fallback is also not the position in the *input* list, as the
claim states: it is the position in the sorted list, and the constant 0
inside the comparator.) -/
theorem buildDialogs_not_sorted_counterexample :
    (buildDialogs ⟨[speechOfId "a_0", speechOfId "b", speechOfId "c_1"]⟩).map
        Dialog.order = [0, 2, 1] ∧
    ¬ List.Sorted (· ≤ ·)
        ((buildDialogs ⟨[speechOfId "a_0", speechOfId "b", speechOfId "c_1"]⟩).map
          Dialog.order) := by
  constructor
  · rfl
  · rw [show (buildDialogs ⟨[speechOfId "a_0", speechOfId "b", speechOfId "c_1"]⟩).map
        Dialog.order = [0, 2, 1] from rfl]
    decide

lemma enumFrom_map_resolved {α β : Type} (g : α → Nat → β) (l : List α)
    (hg : ∀ s ∈ l, ∀ i j, g s i = g s j) :
    ∀ n, (List.enumFrom n l).map (fun p => g p.2 p.1) = l.map (fun s => g s 0) := by
  induction l with
  | nil => intro n; rfl
  | cons a as ih =>
    intro n
    simp only [List.enumFrom_cons, List.map_cons]
    rw [hg a (List.mem_cons_self a as) n 0,
      ih (fun s hs => hg s (List.mem_cons_of_mem a hs)) (n + 1)]

lemma sortSpeeches_key_sorted (raw : RawMeetingRecord) :
    List.Sorted (· ≤ ·) ((sortSpeeches raw).map sortKey) := by
  haveI : IsTotal RawSpeechRecord (fun a b => sortKey a ≤ sortKey b) :=
    ⟨fun a b => le_total (sortKey a) (sortKey b)⟩
  haveI : IsTrans RawSpeechRecord (fun a b => sortKey a ≤ sortKey b) :=
    ⟨fun _ _ _ hab hbc => le_trans hab hbc⟩
  have hs := List.sorted_insertionSort
    (fun a b => sortKey a ≤ sortKey b) raw.speechRecord
  exact List.pairwise_map.mpr hs

/-- C2 (amended).  `buildDialogs` stably sorts the speeches ascending by
the comparator key — numeric speechID suffix, else explicit speechOrder,
else the constant 1 (the comparator resolves the positional fallback
with index 0, not the input position) — and then assigns each dialog the
order re-resolved with its position in the *sorted* list as the final
fallback.  Consequently: an empty input yields an empty Dialog sequence;
the sort key column of the sorted speeches is ascending; and whenever no
speech needs the positional fallback (every speech has a numeric suffix
or an explicit speechOrder), the resulting Dialog orders are ascending. -/
theorem buildDialogs_sorted_amended :
    (∀ raw : RawMeetingRecord, raw.speechRecord = [] → buildDialogs raw = []) ∧
    (∀ raw : RawMeetingRecord,
      List.Sorted (· ≤ ·) ((sortSpeeches raw).map sortKey)) ∧
    (∀ raw : RawMeetingRecord,
      (∀ s ∈ raw.speechRecord, speechIdSuffixNum s ≠ none ∨ s.speechOrder ≠ none) →
      List.Sorted (· ≤ ·) ((buildDialogs raw).map Dialog.order)) := by
  refine ⟨?_, sortSpeeches_key_sorted, ?_⟩
  · intro raw h
    simp [buildDialogs, sortSpeeches, h, List.insertionSort]
  · intro raw h
    have hindep : ∀ s ∈ sortSpeeches raw, ∀ i j,
        getSpeechNumericOrder s i = getSpeechNumericOrder s j := by
      intro s hs i j
      have hmem : s ∈ raw.speechRecord :=
        (List.perm_insertionSort _ raw.speechRecord).mem_iff.mp hs
      rcases h s hmem with hsuf | hord
      · unfold getSpeechNumericOrder
        rcases hx : speechIdSuffixNum s with _ | v
        · exact absurd hx hsuf
        · rfl
      · unfold getSpeechNumericOrder
        rcases hx : speechIdSuffixNum s with _ | v
        · rcases hy : s.speechOrder with _ | o
          · exact absurd hy hord
          · rfl
        · rfl
    have hmap : (buildDialogs raw).map Dialog.order =
        (sortSpeeches raw).map sortKey := by
      unfold buildDialogs
      rw [List.map_map]
      have heq : (Dialog.order ∘ fun p : Nat × RawSpeechRecord =>
          toDialog p.2 (getSpeechNumericOrder p.2 p.1)) =
          fun p : Nat × RawSpeechRecord => getSpeechNumericOrder p.2 p.1 := rfl
      rw [heq, List.enum]
      exact enumFrom_map_resolved getSpeechNumericOrder (sortSpeeches raw) hindep 0
    rw [hmap]
    exact sortSpeeches_key_sorted raw

/-- Witness for the amended C2 at concrete inputs: the empty meeting
yields no dialogs, and a meeting whose speeches all carry numeric
suffixes (`x_2`, `x_1`) yields dialogs with ascending orders. -/
theorem buildDialogs_sorted_amended_witness :
    buildDialogs ⟨[]⟩ = [] ∧
    List.Sorted (· ≤ ·)
      ((buildDialogs ⟨[speechOfId "x_2", speechOfId "x_1"]⟩).map Dialog.order) :=
  ⟨buildDialogs_sorted_amended.1 ⟨[]⟩ rfl,
    buildDialogs_sorted_amended.2.2 ⟨[speechOfId "x_2", speechOfId "x_1"]⟩
      (by decide)⟩

/-! ### Parallel tree reducer (reduceMiddleSummaries).

The LLM is a collaborator: one reduction call `reduceGroupToResult`
invokes `llm.generateObject` once on a group of middle summaries.  It is
embedded as an oracle `llm : List MiddleSummary → ReduceLLMResult`, and
every function returns the number of LLM calls it performed alongside
its result.  `mapWithConcurrency` fills a result slot per input index,
so its outcome is an index-ordered `List.map`; the `while` loop is
embedded with fuel (`none` models the non-terminating loop). -/

/-- interface ReduceLLMResult (title, categories, summary, soft_summary,
description?, keywords?). -/
structure ReduceLLMResult where
  title : String
  categories : List String
  summary : MiddleSummary
  soft_summary : MiddleSummary
  description : Option String
  keywords : Option (List Keyword)
deriving Repr, DecidableEq

/-- `Array.from(new Set(xs))`: deduplicate keeping first-occurrence
order. -/
def jsSetDedup (l : List Int) : List Int :=
  l.foldl (fun acc x => if x ∈ acc then acc else acc ++ [x]) []

/-- `reduceResultToMiddleSummary(r)`. -/
def reduceResultToMiddleSummary (r : ReduceLLMResult) : MiddleSummary :=
  { based_on_orders := jsSetDedup r.summary.based_on_orders
    summary := r.summary.summary }

/-- `chunkArray(arr, size)`: slices of `size` consecutive elements (the
final slice may be shorter).  With `size = 0` the JS `for` loop never
advances; callers always normalize the size to at least 1. -/
def chunkArray : Nat → List α → List (List α)
  | _, [] => []
  | 0, _ :: _ => []
  | size + 1, a :: rest =>
    (a :: rest).take (size + 1) :: chunkArray (size + 1) ((a :: rest).drop (size + 1))
termination_by _ l => l.length
decreasing_by simp [List.length_drop]; omega

/-- The `while (layer.length > groupSize)` loop followed by the final
`reduceGroupToResult`, with fuel; the result is paired with the number
of LLM calls made.  When `layer.length ≤ groupSize` this is the direct
single-call reduction. -/
def reduceLoop (llm : List MiddleSummary → ReduceLLMResult) (groupSize : Nat) :
    Nat → List MiddleSummary → Option (ReduceLLMResult × Nat)
  | fuel, layer =>
    if layer.length ≤ groupSize then some (llm layer, 1)
    else
      match fuel with
      | 0 => none
      | fuel' + 1 =>
        let groups := chunkArray groupSize layer
        let partials := groups.map fun g => reduceResultToMiddleSummary (llm g)
        match reduceLoop llm groupSize fuel' partials with
        | none => none
        | some (r, c) => some (r, groups.length + c)

/-- The zero-value ReduceResult returned for an empty input. -/
def zeroReduceResult : ReduceLLMResult :=
  { title := ""
    categories := []
    summary := { based_on_orders := [], summary := "" }
    soft_summary := { based_on_orders := [], summary := "" }
    description := some ""
    keywords := some [] }

/-- `reduceMiddleSummaries`: group size normalized with `Math.max(1, …)`;
an empty input short-circuits to the zero result before any call. -/
def reduceMiddleSummaries (llm : List MiddleSummary → ReduceLLMResult)
    (groupSize0 : Int) (middleSummaries : List MiddleSummary) :
    Option (ReduceLLMResult × Nat) :=
  let groupSize := (max 1 groupSize0).toNat
  if middleSummaries.length = 0 then some (zeroReduceResult, 0)
  else reduceLoop llm groupSize middleSummaries.length middleSummaries

/-- C3.  Reducing the empty MiddleSummary list returns the zero-value
ReduceResult — empty title, empty categories, summary and soft_summary
with empty text and empty based_on_orders — with zero LLM calls and
without an error, for every oracle and configured group size. -/
theorem reduceMiddleSummaries_empty
    (llm : List MiddleSummary → ReduceLLMResult) (groupSize0 : Int) :
    reduceMiddleSummaries llm groupSize0 [] =
      some ({ title := ""
              categories := []
              summary := { based_on_orders := [], summary := "" }
              soft_summary := { based_on_orders := [], summary := "" }
              description := some ""
              keywords := some [] }, 0) := rfl

/-! ### Token bucket (limiters.ts: TokenBucket).

Wall-clock reads (`Date.now()`) become explicit `now` arguments; the
blocking `acquire` loop is a step function iterated over the list of
times at which the loop body runs, `none` meaning the loop has not
returned within those observations. -/

/-- TokenBucket state: fractional token level, last refill time (epoch
ms), per-ms refill rate, capacity. -/
structure TokenBucket where
  tokens : ℚ
  lastMs : Int
  perMs : ℚ
  cap : ℚ
deriving Repr, DecidableEq

/-- `new TokenBucket(tokensPerMinute)`: clamp with
`Math.max(1, Math.floor(...))`, start full, refill per ms =
perMinute / 60000. -/
def tokenBucketInit (now : Int) (tokensPerMinute : ℚ) : TokenBucket :=
  let perMinute : Int := max 1 ⌊tokensPerMinute⌋
  { tokens := (perMinute : ℚ)
    lastMs := now
    perMs := (perMinute : ℚ) / 60000
    cap := (perMinute : ℚ) }

/-- Well-formedness maintained by every bucket the code constructs. -/
def TokenBucket.wf (b : TokenBucket) : Prop :=
  0 ≤ b.tokens ∧ b.tokens ≤ b.cap ∧ 0 ≤ b.perMs

/-- `refill()`: add `dt * perMs` tokens capped at capacity, when time
advanced. -/
def refill (b : TokenBucket) (now : Int) : TokenBucket :=
  if 0 < now - b.lastMs then
    { tokens := min b.cap (b.tokens + ((now - b.lastMs : Int) : ℚ) * b.perMs)
      lastMs := now
      perMs := b.perMs
      cap := b.cap }
  else b

/-- One iteration of the `acquire(n)` loop body at time `now`: refill,
then deduct when at least `n` tokens are available. -/
def acquireStep (b : TokenBucket) (now : Int) (n : ℚ) : Option TokenBucket :=
  if n ≤ (refill b now).tokens then
    some { refill b now with tokens := (refill b now).tokens - n }
  else none

/-- The `acquire(n)` retry loop run at the given wake-up times; a failed
iteration still performed its refill, which persists. -/
def acquireGo (n : ℚ) : TokenBucket → List Int → Option TokenBucket
  | _, [] => none
  | b, t :: ts =>
    match acquireStep b t n with
    | some b' => some b'
    | none => acquireGo n (refill b t) ts

/-- `acquire(n)`: `if (n <= 0) return;` then the loop. -/
def tokenBucketAcquire (b : TokenBucket) (n : ℚ) (times : List Int) :
    Option TokenBucket :=
  if n ≤ 0 then some b else acquireGo n b times

/-- Iterated refills (the state after a failed prefix of the loop). -/
def refills (b : TokenBucket) (ts : List Int) : TokenBucket := ts.foldl refill b

lemma tokenBucketInit_wf (now : Int) (tpm : ℚ) : (tokenBucketInit now tpm).wf := by
  have h1 : (1 : Int) ≤ max 1 ⌊tpm⌋ := le_max_left 1 ⌊tpm⌋
  have h1q : (0 : ℚ) ≤ ((max 1 ⌊tpm⌋ : Int) : ℚ) := by exact_mod_cast le_trans zero_le_one h1
  refine ⟨h1q, le_refl _, ?_⟩
  exact div_nonneg h1q (by norm_num)

lemma refill_cap (b : TokenBucket) (now : Int) : (refill b now).cap = b.cap := by
  unfold refill
  split <;> rfl

lemma refill_perMs (b : TokenBucket) (now : Int) : (refill b now).perMs = b.perMs := by
  unfold refill
  split <;> rfl

lemma refill_wf (b : TokenBucket) (now : Int) (h : b.wf) : (refill b now).wf := by
  obtain ⟨h0, hc, hp⟩ := h
  unfold refill TokenBucket.wf
  split
  · rename_i hdt
    refine ⟨?_, min_le_left _ _, hp⟩
    have hdtq : (0 : ℚ) ≤ ((now - b.lastMs : Int) : ℚ) := by
      exact_mod_cast le_of_lt hdt
    have : (0 : ℚ) ≤ b.tokens + ((now - b.lastMs : Int) : ℚ) * b.perMs :=
      add_nonneg h0 (mul_nonneg hdtq hp)
    exact le_min (le_trans h0 hc) this
  · exact ⟨h0, hc, hp⟩

lemma refill_tokens_formula (b : TokenBucket) (now : Int) (h : b.wf)
    (hnow : b.lastMs ≤ now) :
    (refill b now).tokens = min b.cap (b.tokens + ((now - b.lastMs : Int) : ℚ) * b.perMs) := by
  obtain ⟨_, hc, _⟩ := h
  unfold refill
  split
  · rfl
  · rename_i hdt
    have hz : now - b.lastMs = 0 := le_antisymm (not_lt.mp hdt) (by omega)
    rw [hz]
    simp [min_eq_right hc]

/-- C4.  Token bucket semantics: freshly constructed buckets are
well-formed and refills preserve well-formedness; after an elapsed time
`t = now − lastMs ≥ 0` the available token count equals
`min(cap, previous + t·perMs)`; a successful `acquire(n)` loop iteration
happens only when at least `n` tokens are available after that refill
and deducts exactly `n`; and whenever the acquire loop returns, some
iteration had at least `n` tokens available at that moment — it never
returns before enough tokens exist. -/
theorem tokenBucket_refill_acquire_spec :
    (∀ (now : Int) (tpm : ℚ), (tokenBucketInit now tpm).wf) ∧
    (∀ (b : TokenBucket) (now : Int), b.wf → (refill b now).wf) ∧
    (∀ (b : TokenBucket) (now : Int), b.wf → b.lastMs ≤ now →
      (refill b now).tokens =
        min b.cap (b.tokens + ((now - b.lastMs : Int) : ℚ) * b.perMs)) ∧
    (∀ (b : TokenBucket) (now : Int) (n : ℚ) (out : TokenBucket),
      acquireStep b now n = some out →
      n ≤ (refill b now).tokens ∧ out.tokens = (refill b now).tokens - n) ∧
    (∀ (n : ℚ) (b : TokenBucket) (times : List Int) (out : TokenBucket),
      acquireGo n b times = some out →
      ∃ p t s, times = p ++ t :: s ∧ n ≤ (refill (refills b p) t).tokens ∧
        out.tokens = (refill (refills b p) t).tokens - n) := by
  refine ⟨tokenBucketInit_wf, refill_wf, refill_tokens_formula, ?_, ?_⟩
  · intro b now n out h
    unfold acquireStep at h
    split at h
    · rename_i hle
      exact ⟨hle, by cases h; rfl⟩
    · cases h
  · intro n b times
    induction times generalizing b with
    | nil => intro out h; cases h
    | cons t ts ih =>
      intro out h
      unfold acquireGo at h
      rcases hstep : acquireStep b t n with _ | b'
      · rw [hstep] at h
        obtain ⟨p, t', s, hts, hle, hout⟩ := ih (refill b t) out h
        exact ⟨t :: p, t', s, by rw [hts]; rfl, hle, hout⟩
      · rw [hstep] at h
        cases h
        unfold acquireStep at hstep
        split at hstep
        · rename_i hle
          refine ⟨[], t, ts, rfl, hle, ?_⟩
          cases hstep
          rfl
        · cases hstep

/-- Witness for C4 at a concrete bucket: capacity 1, rate 1 token/ms;
refilling after 5 ms keeps the bucket at capacity and an acquire of 1
token succeeds with exactly one token deducted. -/
theorem tokenBucket_refill_acquire_spec_witness :
    (1 : ℚ) ≤ (refill ⟨1, 0, 1, 1⟩ 5).tokens ∧
    (⟨0, 5, 1, 1⟩ : TokenBucket).tokens = (refill ⟨1, 0, 1, 1⟩ 5).tokens - 1 :=
  tokenBucket_refill_acquire_spec.2.2.2.1 ⟨1, 0, 1, 1⟩ 5 1
    ⟨0, 5, 1, 1⟩ (by simp [acquireStep, refill])

/-! ### Day counter (limiters.ts: DayCounter). -/

/-- DayCounter state. -/
structure DayCounter where
  count : Nat
  nextResetMs : Nat
  capacity : Nat
deriving Repr, DecidableEq

/-- `Date.UTC(y, m, d + 1)` for the current epoch-ms instant: the next
UTC midnight strictly after the start of the current UTC day. -/
def nextUtcMidnightMs (now : Nat) : Nat := (now / 86400000 + 1) * 86400000

/-- `new DayCounter(requestsPerDay)`: capacity clamped with
`Math.max(1, Math.floor(...))`, count 0, reset at next UTC midnight. -/
def dayCounterInit (now : Nat) (requestsPerDay : ℚ) : DayCounter :=
  { count := 0
    nextResetMs := nextUtcMidnightMs now
    capacity := (max 1 ⌊requestsPerDay⌋).toNat }

/-- `maybeReset()`: zero the count and move the boundary once the
current time has reached it. -/
def maybeReset (c : DayCounter) (now : Nat) : DayCounter :=
  if c.nextResetMs ≤ now then
    { c with count := 0, nextResetMs := nextUtcMidnightMs now }
  else c

/-- One granted `acquire(n)` call at time `now`: the `n <= 0` early
return, else one loop iteration that must succeed (`count + n <=
capacity` after `maybeReset`); `none` = the call would have to wait. -/
def dayAcquireStep (c : DayCounter) (now : Nat) (n : Nat) : Option DayCounter :=
  if n = 0 then some c
  else if (maybeReset c now).count + n ≤ (maybeReset c now).capacity then
    some { maybeReset c now with count := (maybeReset c now).count + n }
  else none

/-- A sequence of granted `acquire` calls, each at its own time. -/
def dayGrantRun (c : DayCounter) : List (Nat × Nat) → Option DayCounter
  | [] => some c
  | (t, n) :: rest =>
    match dayAcquireStep c t n with
    | some c' => dayGrantRun c' rest
    | none => none

/-- C5.  Day counter semantics: the reset boundary is the next UTC
midnight (a multiple of 86400000 ms, at most one day ahead, strictly in
the future); `maybeReset` leaves the counter untouched strictly before
the boundary and zeroes the count exactly once the boundary is reached;
and any sequence of granted `acquire(n)` calls whose times stay before
the boundary (within one UTC day) accumulates `count = initial + Σ n ≤
capacity` — in particular, from a fresh counter the cumulative granted
amount never exceeds the capacity. -/
theorem dayCounter_capacity_reset_spec :
    (∀ now : Nat, now < nextUtcMidnightMs now ∧
      nextUtcMidnightMs now % 86400000 = 0 ∧
      nextUtcMidnightMs now ≤ now + 86400000) ∧
    (∀ (c : DayCounter) (now : Nat),
      (now < c.nextResetMs → maybeReset c now = c) ∧
      (c.nextResetMs ≤ now → (maybeReset c now).count = 0 ∧
        (maybeReset c now).nextResetMs = nextUtcMidnightMs now)) ∧
    (∀ (c : DayCounter) (reqs : List (Nat × Nat)) (out : DayCounter),
      (∀ r ∈ reqs, r.1 < c.nextResetMs) → c.count ≤ c.capacity →
      dayGrantRun c reqs = some out →
      out.count = c.count + (reqs.map Prod.snd).sum ∧
      out.count ≤ c.capacity ∧
      out.capacity = c.capacity ∧ out.nextResetMs = c.nextResetMs) := by
  refine ⟨?_, ?_, ?_⟩
  · intro now
    unfold nextUtcMidnightMs
    refine ⟨?_, Nat.mul_mod_left _ _, ?_⟩
    · omega
    · omega
  · intro c now
    constructor
    · intro h
      unfold maybeReset
      rw [if_neg (not_le.mpr h)]
    · intro h
      unfold maybeReset
      rw [if_pos h]
      exact ⟨rfl, rfl⟩
  · intro c reqs
    induction reqs generalizing c with
    | nil =>
      intro out _ hcap h
      cases h
      exact ⟨by simp, ‹_›, rfl, rfl⟩
    | cons r rest ih =>
      intro out hin hcap h
      obtain ⟨t, n⟩ := r
      have ht : t < c.nextResetMs := hin (t, n) (List.mem_cons_self _ _)
      have hnr : maybeReset c t = c := by
        unfold maybeReset
        rw [if_neg (not_le.mpr ht)]
      have hin' : ∀ r ∈ rest, r.1 < c.nextResetMs :=
        fun r hr => hin r (List.mem_cons_of_mem _ hr)
      unfold dayGrantRun dayAcquireStep at h
      rw [hnr] at h
      by_cases hn : n = 0
      · rw [if_pos hn] at h
        obtain ⟨h1, h2, h3, h4⟩ := ih c out hin' hcap h
        exact ⟨by simpa [hn] using h1, h2, h3, h4⟩
      · rw [if_neg hn] at h
        by_cases hfit : c.count + n ≤ c.capacity
        · rw [if_pos hfit] at h
          obtain ⟨h1, h2, h3, h4⟩ :=
            ih { c with count := c.count + n } out hin' hfit h
          refine ⟨?_, h2, h3, h4⟩
          simpa [Nat.add_assoc] using h1
        · rw [if_neg hfit] at h
          cases h

/-- Witness for C5 at a concrete counter: capacity 10, two grants of 4
and 3 at times before the boundary accumulate to 7 ≤ 10. -/
theorem dayCounter_capacity_reset_spec_witness :
    (⟨7, 86400000, 10⟩ : DayCounter).count = (⟨0, 86400000, 10⟩ : DayCounter).count +
      ([((5 : Nat), (4 : Nat)), (9, 3)].map Prod.snd).sum ∧
    (⟨7, 86400000, 10⟩ : DayCounter).count ≤ (⟨0, 86400000, 10⟩ : DayCounter).capacity ∧
    (⟨7, 86400000, 10⟩ : DayCounter).capacity = (⟨0, 86400000, 10⟩ : DayCounter).capacity ∧
    (⟨7, 86400000, 10⟩ : DayCounter).nextResetMs = (⟨0, 86400000, 10⟩ : DayCounter).nextResetMs :=
  dayCounter_capacity_reset_spec.2.2 ⟨0, 86400000, 10⟩ [(5, 4), (9, 3)]
    ⟨7, 86400000, 10⟩ (by decide) (by decide) (by decide)

/-! ### Budget middleware (middleware.ts `withBudget` + limiters.ts
`BudgetManager.acquireRequest` / `noteUsage`).

Only the tokens-per-minute accounting is claimed; the functions below
compute the TPM amounts acquired before and after a wrapped call.  Times
and the bucket state are orthogonal to the amounts and are handled by
the TokenBucket model above. -/

/-- interface LLMUsage: optional token counts. -/
structure LLMUsage where
  inputTokens : Option Int
  outputTokens : Option Int
  totalTokens : Option Int
deriving Repr, DecidableEq

/-- `usage?.totalTokens ?? ((usage?.inputTokens ?? 0) + (usage?.outputTokens ?? 0))`. -/
def usedTokensOf (usage : Option LLMUsage) : Int :=
  match usage with
  | none => 0
  | some u =>
    match u.totalTokens with
    | some t => t
    | none => u.inputTokens.getD 0 + u.outputTokens.getD 0

/-- TPM tokens acquired by `BudgetManager.acquireRequest(expectedTokens)`
on the tokens-per-minute bucket (when one is configured): the estimate
is pre-reserved only in strict mode and only when truthy and positive. -/
def acquireRequestTpmAmount (strict : Bool) (expected : Option Int) : Int :=
  if strict then
    match expected with
    | some e => if 0 < e then e else 0
    | none => 0
  else 0

/-- TPM tokens acquired by `BudgetManager.noteUsage(usedTokens,
preReserved)`: nothing for non-positive usage, else the positive delta
`max(0, used − (preReserved ?? 0))`; tokens are never handed back. -/
def noteUsageTpmAmount (usedTokens : Int) (preReserved : Option Int) : Int :=
  if usedTokens ≤ 0 then 0
  else max 0 (usedTokens - preReserved.getD 0)

/-- The TPM amounts (pre-call, post-call) acquired around one wrapped
`generate`/`generateObject` call in `withBudget`: the token estimate is
computed (via `client.countTokens`, which may fail: `none`) only in
strict mode, pre-reserved by `acquireRequest`, and reconciled by
`noteUsage(used, expectedTokens)` after the call. -/
def wrapGenerateTpmAmounts (strict : Bool) (countTokensResult : Option Int)
    (usage : Option LLMUsage) : Int × Int :=
  (acquireRequestTpmAmount strict (if strict then countTokensResult else none),
    noteUsageTpmAmount (usedTokensOf usage) (if strict then countTokensResult else none))

/-- C6.  Strict-TPM reconciliation: with strict accounting and a
positive pre-call estimate `e`, a call with positive actual usage `u`
pre-reserves exactly `e` and afterwards acquires exactly
`max(0, u − e)` — in particular nothing further when `u ≤ e`; both
amounts are never negative, so tokens are never refunded; and with
strict accounting disabled no TPM tokens are reserved before the call
and the full actual usage `u` is acquired after it. -/
theorem withBudget_tpm_reconciliation :
    (∀ (e : Int) (usage : Option LLMUsage), 0 < e → 0 < usedTokensOf usage →
      wrapGenerateTpmAmounts true (some e) usage =
        (e, max 0 (usedTokensOf usage - e))) ∧
    (∀ (e : Int) (usage : Option LLMUsage), 0 < e → usedTokensOf usage ≤ e →
      (wrapGenerateTpmAmounts true (some e) usage).2 = 0) ∧
    (∀ (strict : Bool) (c : Option Int) (usage : Option LLMUsage),
      0 ≤ (wrapGenerateTpmAmounts strict c usage).1 ∧
      0 ≤ (wrapGenerateTpmAmounts strict c usage).2) ∧
    (∀ (c : Option Int) (usage : Option LLMUsage), 0 < usedTokensOf usage →
      wrapGenerateTpmAmounts false c usage = (0, usedTokensOf usage)) := by
  refine ⟨?_, ?_, ?_, ?_⟩
  · intro e usage he hu
    unfold wrapGenerateTpmAmounts acquireRequestTpmAmount noteUsageTpmAmount
    simp [if_pos he, not_le.mpr hu]
  · intro e usage he hu
    unfold wrapGenerateTpmAmounts acquireRequestTpmAmount noteUsageTpmAmount
    by_cases h0 : usedTokensOf usage ≤ 0
    · simp [h0]
    · simp only [if_neg h0, if_pos trivial]
      simp only [Option.getD_some]
      omega
  · intro strict c usage
    constructor
    · show 0 ≤ acquireRequestTpmAmount strict (if strict then c else none)
      unfold acquireRequestTpmAmount
      rcases strict with _ | _
      · simp
      · rcases c with _ | e
        · simp
        · by_cases he : 0 < e
          · simpa [he] using le_of_lt he
          · simp [he]
    · show 0 ≤ noteUsageTpmAmount (usedTokensOf usage) (if strict then c else none)
      unfold noteUsageTpmAmount
      by_cases hu : usedTokensOf usage ≤ 0
      · simp [hu]
      · rw [if_neg hu]
        exact le_max_left _ _
  · intro c usage hu
    unfold wrapGenerateTpmAmounts acquireRequestTpmAmount noteUsageTpmAmount
    simp [not_le.mpr hu, max_eq_right (le_of_lt hu)]

/-- Witness for C6 at concrete values: estimate 40, actual usage 50 in
strict mode acquires (40, 10); usage 30 with estimate 40 acquires
nothing post-call; non-strict mode with usage 50 acquires (0, 50). -/
theorem withBudget_tpm_reconciliation_witness :
    wrapGenerateTpmAmounts true (some 40) (some ⟨none, none, some 50⟩) = (40, 10) ∧
    (wrapGenerateTpmAmounts true (some 40) (some ⟨none, none, some 30⟩)).2 = 0 ∧
    wrapGenerateTpmAmounts false (some 40) (some ⟨none, none, some 50⟩) = (0, 50) := by
  refine ⟨?_, ?_, ?_⟩
  · have h := withBudget_tpm_reconciliation.1 40 (some ⟨none, none, some 50⟩)
      (by decide) (by decide)
    simpa using h
  · exact withBudget_tpm_reconciliation.2.1 40 (some ⟨none, none, some 30⟩)
      (by decide) (by decide)
  · exact withBudget_tpm_reconciliation.2.2.2 (some 40) (some ⟨none, none, some 50⟩)
      (by decide)

/-- C10.  Termination domain of `TokenBucket.acquire(n)`: a
non-positive `n` returns immediately with the bucket untouched; for
`0 < n ≤ cap` one loop iteration succeeds as soon as enough time has
passed (any wake-up at or beyond `cap / perMs` ms after `lastMs`
refills the bucket to capacity, so the acquire returns); but for
`n > cap` no iteration can ever succeed — `tokens ≤ cap < n` is
invariant — so the loop never returns, and in particular a strict-TPM
pre-reservation (`acquireRequest` with a positive estimate `e`, which
acquires exactly `e` TPM tokens) blocks forever whenever `e` exceeds
the tokens-per-minute capacity. -/
theorem tokenBucket_acquire_termination :
    (∀ (b : TokenBucket) (n : ℚ) (times : List Int), n ≤ 0 →
      tokenBucketAcquire b n times = some b) ∧
    (∀ (b : TokenBucket) (n : ℚ), b.wf → 0 < n → n ≤ b.cap → 0 < b.perMs →
      ∀ t : Int, b.cap / b.perMs ≤ ((t - b.lastMs : Int) : ℚ) →
        acquireGo n b [t] = some { refill b t with tokens := (refill b t).tokens - n }) ∧
    (∀ (b : TokenBucket) (n : ℚ), b.wf → b.cap < n →
      ∀ times : List Int, acquireGo n b times = none) ∧
    (∀ (e : Int) (b : TokenBucket), b.wf → 0 < e → b.cap < (e : ℚ) →
      acquireRequestTpmAmount true (some e) = e ∧
      ∀ times : List Int, acquireGo (e : ℚ) b times = none) := by
  have hblock : ∀ (b : TokenBucket) (n : ℚ), b.wf → b.cap < n →
      ∀ times : List Int, acquireGo n b times = none := by
    intro b n hwf hlt times
    induction times generalizing b with
    | nil => rfl
    | cons t ts ih =>
      have hwf' := refill_wf b t hwf
      have hcap' := refill_cap b t
      unfold acquireGo acquireStep
      rw [if_neg]
      · exact ih (refill b t) hwf' (by rw [hcap']; exact hlt)
      · intro hle
        have : (refill b t).tokens ≤ b.cap := hcap' ▸ hwf'.2.1
        exact absurd (le_trans hle this) (not_le.mpr hlt)
  refine ⟨?_, ?_, hblock, ?_⟩
  · intro b n times hn
    unfold tokenBucketAcquire
    rw [if_pos hn]
  · intro b n hwf hn hncap hperMs t hwait
    have hcappos : 0 < b.cap := lt_of_lt_of_le hn hncap
    have hdtpos : 0 < t - b.lastMs := by
      have h1 : 0 < b.cap / b.perMs := div_pos hcappos hperMs
      have h2 : (0 : ℚ) < ((t - b.lastMs : Int) : ℚ) := lt_of_lt_of_le h1 hwait
      exact_mod_cast h2
    have hfull : (refill b t).tokens = b.cap := by
      unfold refill
      rw [if_pos hdtpos]
      have hmul : b.cap ≤ ((t - b.lastMs : Int) : ℚ) * b.perMs := by
        rw [div_le_iff₀ hperMs] at hwait
        exact hwait
      have : b.cap ≤ b.tokens + ((t - b.lastMs : Int) : ℚ) * b.perMs :=
        le_add_of_nonneg_of_le hwf.1 hmul
      exact min_eq_left this
    unfold acquireGo acquireStep
    rw [if_pos (by rw [hfull]; exact hncap)]
  · intro e b hwf hepos hecap
    refine ⟨?_, hblock b (e : ℚ) hwf hecap⟩
    unfold acquireRequestTpmAmount
    rw [if_pos rfl]
    simp [hepos]

/-- Witness for C10 at a concrete bucket (capacity 10, rate 1/ms):
acquiring 0 returns immediately; acquiring 3 succeeds at a wake-up 10 ms
later; acquiring 11 (> capacity) gets nothing from three loop
iterations; and a strict pre-reservation of 11 tokens acquires 11 and
likewise never returns. -/
theorem tokenBucket_acquire_termination_witness :
    tokenBucketAcquire ⟨10, 0, 1, 10⟩ 0 [1, 2, 3] = some ⟨10, 0, 1, 10⟩ ∧
    acquireGo 3 ⟨4, 0, 1, 10⟩ [10] = some ⟨7, 10, 1, 10⟩ ∧
    acquireGo 11 ⟨10, 0, 1, 10⟩ [5, 9, 14] = none ∧
    (acquireRequestTpmAmount true (some 11) = 11 ∧
      ∀ times : List Int, acquireGo ((11 : Int) : ℚ) ⟨10, 0, 1, 10⟩ times = none) := by
  refine ⟨?_, ?_, ?_, ?_⟩
  · exact tokenBucket_acquire_termination.1 ⟨10, 0, 1, 10⟩ 0 [1, 2, 3] (by decide)
  · have h := tokenBucket_acquire_termination.2.1 ⟨4, 0, 1, 10⟩ 3
      (by refine ⟨by norm_num, by norm_num, by norm_num⟩) (by norm_num)
      (by norm_num) (by norm_num) 10 (by norm_num)
    have heq : ({ refill ⟨4, 0, 1, 10⟩ 10 with
        tokens := (refill ⟨4, 0, 1, 10⟩ 10).tokens - 3 } : TokenBucket) =
        ⟨7, 10, 1, 10⟩ := by
      simp [refill]
      norm_num
    rw [heq] at h
    exact h
  · exact tokenBucket_acquire_termination.2.2.1 ⟨10, 0, 1, 10⟩ 11
      (by refine ⟨by norm_num, by norm_num, by norm_num⟩) (by norm_num) [5, 9, 14]
  · exact tokenBucket_acquire_termination.2.2.2 11 ⟨10, 0, 1, 10⟩
      (by refine ⟨by norm_num, by norm_num, by norm_num⟩) (by norm_num) (by norm_num)

/-! ### Gemini client retry with backoff (geminiClient.ts: backoffMs /
isRetriableError / withRetry).

The outcome of attempt `i` of the wrapped operation is an oracle
`results : Nat → Except GemHttpError α`; `Math.random()` at retry `i` is
an oracle `rand : Nat → ℚ` with values in `[0, 1)`.  `withRetry` returns
the final outcome, the number of attempts performed, and the list of
backoff waits slept between attempts. -/

/-- The error fields `isRetriableError` inspects: `e?.status`,
`e?.response?.status`, `e?.code`, `e?.errno`. -/
structure GemHttpError where
  status : Option Int
  responseStatus : Option Int
  code : Option String
  errno : Option String
deriving Repr, DecidableEq

/-- JavaScript `a ?? b` on possibly-undefined values. -/
def jsNullish {α : Type} (a b : Option α) : Option α :=
  match a with
  | some x => some x
  | none => b

/-- JavaScript `a || b` on possibly-undefined strings (the empty string
is falsy). -/
def jsOrString (a b : Option String) : Option String :=
  match a with
  | some s => if s = "" then b else some s
  | none => b

/-- `isRetriableError(e)`: HTTP 503/429/500/408, or one of the transient
network error codes. -/
def isRetriableError (e : GemHttpError) : Bool :=
  if jsNullish e.status e.responseStatus = some 503 ∨
      jsNullish e.status e.responseStatus = some 429 ∨
      jsNullish e.status e.responseStatus = some 500 ∨
      jsNullish e.status e.responseStatus = some 408
  then true
  else
    match jsOrString e.code e.errno with
    | some c => c = "ETIMEDOUT" ∨ c = "ECONNRESET" ∨ c = "ENETUNREACH" ∨ c = "EAI_AGAIN"
    | none => false

/-- `backoffMs(attempt, base, cap)` with `Math.random() = r`:
`Math.floor(r * (min(cap, base * 2^attempt) + 1))` — exponential
backoff with full jitter. -/
def backoffMs (r : ℚ) (attempt : Nat) (base cap : Int) : Int :=
  ⌊r * ((min cap (base * 2 ^ attempt) : Int) + 1 : ℚ)⌋

/-- The `for (attempt = 0; attempt <= max; attempt++)` retry loop,
parameterized by the remaining attempts after the current one.  Returns
(outcome, attempts performed, waits slept). -/
def withRetryGo {α : Type} (results : Nat → Except GemHttpError α)
    (rand : Nat → ℚ) (base cap : Int) (attempt : Nat) :
    Nat → Except GemHttpError α × Nat × List Int
  | 0 =>
    -- attempt == max: a failure here breaks out and is rethrown
    match results attempt with
    | .ok v => (.ok v, attempt + 1, [])
    | .error e => (.error e, attempt + 1, [])
  | remaining + 1 =>
    match results attempt with
    | .ok v => (.ok v, attempt + 1, [])
    | .error e =>
      if isRetriableError e then
        ((withRetryGo results rand base cap (attempt + 1) remaining).1,
          (withRetryGo results rand base cap (attempt + 1) remaining).2.1,
          backoffMs (rand attempt) attempt base cap ::
            (withRetryGo results rand base cap (attempt + 1) remaining).2.2)
      else (.error e, attempt + 1, [])

/-- `withRetry(op)` with `GEMINI_RETRY_MAX = maxRetries` and the given
base/cap delays. -/
def geminiWithRetry {α : Type} (maxRetries : Nat)
    (results : Nat → Except GemHttpError α) (rand : Nat → ℚ) (base cap : Int) :
    Except GemHttpError α × Nat × List Int :=
  withRetryGo results rand base cap 0 maxRetries

lemma withRetryGo_attempts_le {α : Type} (results : Nat → Except GemHttpError α)
    (rand : Nat → ℚ) (base cap : Int) :
    ∀ (remaining attempt : Nat),
      (withRetryGo results rand base cap attempt remaining).2.1 ≤
        attempt + remaining + 1 := by
  intro remaining
  induction remaining with
  | zero =>
    intro attempt
    unfold withRetryGo
    rcases results attempt with e | v <;> simp
  | succ r ih =>
    intro attempt
    unfold withRetryGo
    split
    · dsimp only
      omega
    · split
      · have := ih (attempt + 1)
        dsimp only
        omega
      · dsimp only
        omega

lemma backoffMs_bounds (r : ℚ) (i : Nat) (base cap : Int)
    (hr0 : 0 ≤ r) (hr1 : r < 1) (hbase : 0 ≤ base) (hcap : 0 ≤ cap) :
    0 ≤ backoffMs r i base cap ∧ backoffMs r i base cap ≤ min cap (base * 2 ^ i) := by
  have hE : (0 : Int) ≤ min cap (base * 2 ^ i) :=
    le_min hcap (mul_nonneg hbase (pow_nonneg (by norm_num) i))
  have hEq : (0 : ℚ) ≤ ((min cap (base * 2 ^ i) : Int) : ℚ) := by exact_mod_cast hE
  constructor
  · apply Int.floor_nonneg.mpr
    exact mul_nonneg hr0 (by linarith)
  · have hlt : r * (((min cap (base * 2 ^ i) : Int) : ℚ) + 1) <
        ((min cap (base * 2 ^ i) : Int) : ℚ) + 1 := by
      have hpos : (0 : ℚ) < ((min cap (base * 2 ^ i) : Int) : ℚ) + 1 := by linarith
      calc r * (((min cap (base * 2 ^ i) : Int) : ℚ) + 1)
          < 1 * (((min cap (base * 2 ^ i) : Int) : ℚ) + 1) :=
            mul_lt_mul_of_pos_right hr1 hpos
        _ = ((min cap (base * 2 ^ i) : Int) : ℚ) + 1 := one_mul _
    have h3 : ((backoffMs r i base cap : Int) : ℚ) <
        ((min cap (base * 2 ^ i) : Int) : ℚ) + 1 :=
      lt_of_le_of_lt (Int.floor_le _) hlt
    have h4 : backoffMs r i base cap < min cap (base * 2 ^ i) + 1 := by
      exact_mod_cast h3
    omega

lemma withRetryGo_wait_bounds {α : Type} (results : Nat → Except GemHttpError α)
    (rand : Nat → ℚ) (base cap : Int)
    (hrand : ∀ i, 0 ≤ rand i ∧ rand i < 1) (hbase : 0 ≤ base) (hcap : 0 ≤ cap) :
    ∀ (remaining attempt : Nat) (j : Nat) (w : Int),
      (withRetryGo results rand base cap attempt remaining).2.2[j]? = some w →
      0 ≤ w ∧ w ≤ min cap (base * 2 ^ (attempt + j)) := by
  intro remaining
  induction remaining with
  | zero =>
    intro attempt j w h
    unfold withRetryGo at h
    rcases hres : results attempt with e | v <;> rw [hres] at h <;> simp at h
  | succ r ih =>
    intro attempt j w h
    unfold withRetryGo at h
    split at h
    · simp at h
    · split at h
      · rcases j with _ | j'
        · have hw : backoffMs (rand attempt) attempt base cap = w := by
            simpa using h
          rw [← hw]
          simpa using backoffMs_bounds (rand attempt) attempt base cap
            (hrand attempt).1 (hrand attempt).2 hbase hcap
        · have h' : (withRetryGo results rand base cap (attempt + 1) r).2.2[j']? =
              some w := by
            simpa using h
          have := ih (attempt + 1) j' w h'
          rw [show attempt + 1 + j' = attempt + (j' + 1) by omega] at this
          exact this
      · simp at h

lemma withRetryGo_all_retriable {α : Type} (results : Nat → Except GemHttpError α)
    (rand : Nat → ℚ) (base cap : Int) :
    ∀ (remaining attempt : Nat),
      (∀ i, attempt ≤ i → i ≤ attempt + remaining →
        ∃ e, results i = .error e ∧ isRetriableError e = true) →
      ∃ e, results (attempt + remaining) = .error e ∧
        withRetryGo results rand base cap attempt remaining =
          (.error e, attempt + remaining + 1,
            (List.range remaining).map
              (fun j => backoffMs (rand (attempt + j)) (attempt + j) base cap)) := by
  intro remaining
  induction remaining with
  | zero =>
    intro attempt hall
    obtain ⟨e, he, _⟩ := hall attempt (le_refl _) (by omega)
    refine ⟨e, by simpa using he, ?_⟩
    unfold withRetryGo
    simp only [he]
    simp
  | succ r ih =>
    intro attempt hall
    obtain ⟨e0, he0, hret0⟩ := hall attempt (le_refl _) (by omega)
    obtain ⟨e, he, hgo⟩ := ih (attempt + 1)
      (fun i h1 h2 => hall i (by omega) (by omega))
    refine ⟨e, by rw [show attempt + (r + 1) = attempt + 1 + r by omega]; exact he, ?_⟩
    unfold withRetryGo
    simp only [he0]
    rw [if_pos hret0, hgo]
    dsimp only
    refine congrArg₂ Prod.mk rfl ?_
    refine congrArg₂ Prod.mk (by omega) ?_
    rw [List.range_succ_eq_map]
    simp only [List.map_cons, List.map_map]
    refine congrArg₂ List.cons (by rw [Nat.add_zero]) ?_
    refine List.map_congr_left ?_
    intro j _
    simp only [Function.comp_apply, Nat.succ_eq_add_one]
    rw [show attempt + 1 + j = attempt + (j + 1) by omega]

/-- C7.  Retry policy of the Gemini client: the loop performs at most
`max + 1` attempts; a first-attempt failure that is not retriable
propagates immediately after exactly one attempt with no backoff sleep;
every backoff wait slept before retry `i+1` lies in
`[0, min(cap, base·2^i)]`, and with jitter `r` uniform on `[0,1)` the
wait equals `k` exactly when `r` falls in the interval
`[k/(E+1), (k+1)/(E+1))` of the uniform partition of `[0,1)` (full
jitter); an error is retriable exactly when its HTTP status is 429, 500,
503 or 408 or its error code is one of ETIMEDOUT / ECONNRESET /
ENETUNREACH / EAI_AGAIN; and when every attempt fails retriably the loop
runs all `max + 1` attempts and rethrows the last error. -/
theorem geminiClient_retry_backoff_spec :
    (∀ {α : Type} (maxRetries : Nat) (results : Nat → Except GemHttpError α)
      (rand : Nat → ℚ) (base cap : Int),
      (geminiWithRetry maxRetries results rand base cap).2.1 ≤ maxRetries + 1) ∧
    (∀ {α : Type} (maxRetries : Nat) (results : Nat → Except GemHttpError α)
      (rand : Nat → ℚ) (base cap : Int) (e : GemHttpError),
      results 0 = .error e → isRetriableError e = false →
      geminiWithRetry maxRetries results rand base cap = (.error e, 1, [])) ∧
    (∀ {α : Type} (maxRetries : Nat) (results : Nat → Except GemHttpError α)
      (rand : Nat → ℚ) (base cap : Int),
      (∀ i, 0 ≤ rand i ∧ rand i < 1) → 0 ≤ base → 0 ≤ cap →
      ∀ (j : Nat) (w : Int),
        (geminiWithRetry maxRetries results rand base cap).2.2[j]? = some w →
        0 ≤ w ∧ w ≤ min cap (base * 2 ^ j)) ∧
    (∀ (r : ℚ) (i : Nat) (base cap : Int) (k : Int), 0 ≤ r → r < 1 →
      0 ≤ base → 0 ≤ cap →
      (backoffMs r i base cap = k ↔
        (k : ℚ) / ((min cap (base * 2 ^ i) : Int) + 1) ≤ r ∧
          r < ((k : ℚ) + 1) / ((min cap (base * 2 ^ i) : Int) + 1))) ∧
    (∀ (s : Int), isRetriableError ⟨some s, none, none, none⟩ = true ↔
      (s = 429 ∨ s = 500 ∨ s = 503 ∨ s = 408)) ∧
    (∀ (c : String), isRetriableError ⟨none, none, some c, none⟩ = true ↔
      (c = "ETIMEDOUT" ∨ c = "ECONNRESET" ∨ c = "ENETUNREACH" ∨ c = "EAI_AGAIN")) ∧
    (∀ {α : Type} (maxRetries : Nat) (results : Nat → Except GemHttpError α)
      (rand : Nat → ℚ) (base cap : Int),
      (∀ i, i ≤ maxRetries → ∃ e, results i = .error e ∧ isRetriableError e = true) →
      ∃ e, results maxRetries = .error e ∧
        geminiWithRetry maxRetries results rand base cap =
          (.error e, maxRetries + 1,
            (List.range maxRetries).map
              (fun j => backoffMs (rand j) j base cap))) := by
  refine ⟨?_, ?_, ?_, ?_, ?_, ?_, ?_⟩
  · intro α maxRetries results rand base cap
    have := withRetryGo_attempts_le results rand base cap maxRetries 0
    simpa [geminiWithRetry] using this
  · intro α maxRetries results rand base cap e he hret
    unfold geminiWithRetry
    rcases maxRetries with _ | m
    · unfold withRetryGo
      simp [he]
    · unfold withRetryGo
      simp [he, hret]
  · intro α maxRetries results rand base cap hrand hbase hcap j w h
    have := withRetryGo_wait_bounds results rand base cap hrand hbase hcap
      maxRetries 0 j w (by simpa [geminiWithRetry] using h)
    simpa using this
  · intro r i base cap k hr0 hr1 hbase hcap
    have hE : (0 : Int) ≤ min cap (base * 2 ^ i) :=
      le_min hcap (mul_nonneg hbase (pow_nonneg (by norm_num) i))
    have hpos : (0 : ℚ) < ((min cap (base * 2 ^ i) : Int) : ℚ) + 1 := by
      have : (0 : ℚ) ≤ ((min cap (base * 2 ^ i) : Int) : ℚ) := by exact_mod_cast hE
      linarith
    unfold backoffMs
    rw [Int.floor_eq_iff]
    constructor
    · rintro ⟨h1, h2⟩
      constructor
      · rw [div_le_iff₀ hpos]
        exact h1
      · rw [lt_div_iff₀ hpos] at *
        push_cast at h2 ⊢
        linarith
    · rintro ⟨h1, h2⟩
      constructor
      · rw [div_le_iff₀ hpos] at h1
        exact h1
      · rw [lt_div_iff₀ hpos] at h2
        push_cast at h2 ⊢
        linarith
  · intro s
    constructor
    · intro h
      by_contra hc
      push_neg at hc
      obtain ⟨h1, h2, h3, h4⟩ := hc
      unfold isRetriableError at h
      rw [if_neg] at h
      · simp [jsOrString] at h
      · simp [jsNullish]
        omega
    · intro h
      unfold isRetriableError
      rw [if_pos]
      simp [jsNullish]
      omega
  · intro c
    unfold isRetriableError
    rw [if_neg (by simp [jsNullish])]
    by_cases hc : c = ""
    · subst hc
      simp [jsOrString]
    · simp only [jsOrString, if_neg hc]
      simp
  · intro α maxRetries results rand base cap hall
    have := withRetryGo_all_retriable results rand base cap maxRetries 0
      (fun i h1 h2 => hall i (by omega))
    simpa [geminiWithRetry] using this

/-- Witness for C7 at concrete inputs: a 404 failure is not retriable
and propagates after exactly one attempt; a constant-429 oracle with
`max = 2` makes all three attempts with the recorded jitter waits; and
with jitter 1/2, base 1000, cap 8000 the attempt-0 wait is 500, inside
the uniform-partition interval. -/
theorem geminiClient_retry_backoff_spec_witness :
    geminiWithRetry 3 (fun _ => (.error ⟨some 404, none, none, none⟩ :
        Except GemHttpError Unit)) (fun _ => 0) 1000 8000 =
      (.error ⟨some 404, none, none, none⟩, 1, []) ∧
    (backoffMs (1 / 2) 0 1000 8000 = 500 ↔
      ((500 : Int) : ℚ) / ((min 8000 (1000 * 2 ^ 0) : Int) + 1) ≤ 1 / 2 ∧
        (1 : ℚ) / 2 < (((500 : Int) : ℚ) + 1) / ((min 8000 (1000 * 2 ^ 0) : Int) + 1)) ∧
    (isRetriableError ⟨some 429, none, none, none⟩ = true ↔
      ((429 : Int) = 429 ∨ (429 : Int) = 500 ∨ (429 : Int) = 503 ∨ (429 : Int) = 408)) :=
  ⟨geminiClient_retry_backoff_spec.2.1 3 _ (fun _ => 0) 1000 8000
      ⟨some 404, none, none, none⟩ rfl (by decide),
    geminiClient_retry_backoff_spec.2.2.2.1 (1 / 2) 0 1000 8000 500
      (by norm_num) (by norm_num) (by norm_num) (by norm_num),
    geminiClient_retry_backoff_spec.2.2.2.2.1 429⟩

/-! ### generateObject parse handling (geminiClient.ts:
GeminiClient.generateObject, utils/errorSink.ts: saveErrorToS3).

`JSON.parse` is the JavaScript runtime's strict JSON reader; it is
modelled here as an executable RFC 8259 parser over the character list
(fuel-indexed for the nested grammar; input length + 1 fuel always
suffices since every recursive step consumes input).  The salvage step
`text.match(/\x7b[\s\S]*\x7d|\[[\s\S]*\]/)` takes, from the leftmost
`\x7b` (or `[`) that has a closing `\x7d` (resp. `]`) somewhere after
it, the greedy span up to the last such closer in the string. -/

/-- JSON values. -/
inductive Json where
  | null
  | bool (b : Bool)
  | num (q : ℚ)
  | str (s : String)
  | arr (elems : List Json)
  | obj (fields : List (String × Json))
deriving Repr

/-- JSON insignificant whitespace. -/
def isJsonWs (c : Char) : Bool :=
  c = ' ' ∨ c = '\t' ∨ c = '\n' ∨ c = '\r'

/-- Drop leading JSON whitespace. -/
def skipWs : List Char → List Char
  | [] => []
  | c :: rest => if isJsonWs c then skipWs rest else c :: rest

/-- Value of a hexadecimal digit. -/
def hexVal (c : Char) : Nat :=
  if c.isDigit then c.toNat - 48
  else if 'a' ≤ c ∧ c ≤ 'f' then c.toNat - 87
  else if 'A' ≤ c ∧ c ≤ 'F' then c.toNat - 55
  else 0

/-- Hexadecimal digit test. -/
def isHexDigitChar (c : Char) : Bool :=
  c.isDigit ∨ ('a' ≤ c ∧ c ≤ 'f') ∨ ('A' ≤ c ∧ c ≤ 'F')

/-- Body of a JSON string after the opening quote: returns the decoded
characters and the input after the closing quote.  Fuel-indexed; each
step consumes at least one input character. -/
def parseStringGo : Nat → List Char → Option (List Char × List Char)
  | 0, _ => none
  | _ + 1, [] => none
  | fuel + 1, c :: rest =>
    if c = '"' then some ([], rest)
    else if c = '\\' then
      match rest with
      | [] => none
      | e :: rest2 =>
        if e = 'u' then
          match rest2 with
          | h1 :: h2 :: h3 :: h4 :: rest3 =>
            if isHexDigitChar h1 ∧ isHexDigitChar h2 ∧ isHexDigitChar h3 ∧
                isHexDigitChar h4 then
              match parseStringGo fuel rest3 with
              | some (cs, rr) =>
                some (Char.ofNat (hexVal h1 * 4096 + hexVal h2 * 256 +
                  hexVal h3 * 16 + hexVal h4) :: cs, rr)
              | none => none
            else none
          | _ => none
        else
          match
            (if e = '"' then some '"'
             else if e = '\\' then some '\\'
             else if e = '/' then some '/'
             else if e = 'b' then some '\x08'
             else if e = 'f' then some '\x0c'
             else if e = 'n' then some '\n'
             else if e = 'r' then some '\r'
             else if e = 't' then some '\t'
             else none) with
          | some ch =>
            match parseStringGo fuel rest2 with
            | some (cs, rr) => some (ch :: cs, rr)
            | none => none
          | none => none
    else
      match parseStringGo fuel rest with
      | some (cs, rr) => some (c :: cs, rr)
      | none => none

/-- JSON string body with adequate fuel. -/
def parseStringBody (l : List Char) : Option (List Char × List Char) :=
  parseStringGo (l.length + 1) l

/-- Decimal value of a digit list. -/
def digitsVal (l : List Char) : Nat :=
  l.foldl (fun a c => a * 10 + (c.toNat - 48)) 0

/-- Numeric value `mantissa * 10 ^ (exponent − #fraction digits)`. -/
def numberVal (intDigits fracDigits : List Char) (e : Int) : ℚ :=
  (digitsVal (intDigits ++ fracDigits) : ℚ) * (10 : ℚ) ^ (e - (fracDigits.length : Int))

/-- Exponent digits after an optional sign. -/
def parseNumberFinish (intDigits fracDigits : List Char) (esign : Int)
    (l : List Char) : Option (ℚ × List Char) :=
  match l.takeWhile Char.isDigit with
  | [] => none
  | ed => some (numberVal intDigits fracDigits (esign * (digitsVal ed : Int)),
      l.dropWhile Char.isDigit)

/-- Optional exponent part. -/
def parseNumberExp (intDigits fracDigits : List Char) (l : List Char) :
    Option (ℚ × List Char) :=
  match l with
  | c :: r =>
    if c = 'e' ∨ c = 'E' then
      match r with
      | '+' :: r2 => parseNumberFinish intDigits fracDigits 1 r2
      | '-' :: r2 => parseNumberFinish intDigits fracDigits (-1) r2
      | r2 => parseNumberFinish intDigits fracDigits 1 r2
    else some (numberVal intDigits fracDigits 0, c :: r)
  | [] => some (numberVal intDigits fracDigits 0, [])

/-- Optional fraction part. -/
def parseNumberTail (intDigits : List Char) (l : List Char) :
    Option (ℚ × List Char) :=
  match l with
  | '.' :: r =>
    match r.takeWhile Char.isDigit with
    | [] => none
    | fd => parseNumberExp intDigits fd (r.dropWhile Char.isDigit)
  | _ => parseNumberExp intDigits [] l

/-- Unsigned JSON number: `0` alone or a non-zero leading digit run. -/
def parseNumberNoSign (l : List Char) : Option (ℚ × List Char) :=
  match l with
  | [] => none
  | c :: rest =>
    if c = '0' then parseNumberTail ['0'] rest
    else if c.isDigit then
      parseNumberTail (c :: rest.takeWhile Char.isDigit) (rest.dropWhile Char.isDigit)
    else none

/-- JSON number with optional leading minus. -/
def parseNumber (l : List Char) : Option (ℚ × List Char) :=
  match l with
  | '-' :: r => (parseNumberNoSign r).map (fun p => (-p.1, p.2))
  | _ => parseNumberNoSign l

mutual

/-- One JSON value, leading whitespace allowed. -/
def parseValue : Nat → List Char → Option (Json × List Char)
  | 0, _ => none
  | fuel + 1, l =>
    match skipWs l with
    | [] => none
    | c :: rest =>
      if c = '\x7b' then
        match skipWs rest with
        | '\x7d' :: r2 => some (.obj [], r2)
        | r2 => parseMembers fuel r2
      else if c = '[' then
        match skipWs rest with
        | ']' :: r2 => some (.arr [], r2)
        | r2 => parseElems fuel r2
      else if c = '"' then
        match parseStringBody rest with
        | some (cs, r) => some (.str ⟨cs⟩, r)
        | none => none
      else if c = 'n' then
        if ['u', 'l', 'l'].isPrefixOf rest then some (.null, rest.drop 3) else none
      else if c = 't' then
        if ['r', 'u', 'e'].isPrefixOf rest then some (.bool true, rest.drop 3) else none
      else if c = 'f' then
        if ['a', 'l', 's', 'e'].isPrefixOf rest then some (.bool false, rest.drop 4)
        else none
      else
        match parseNumber (c :: rest) with
        | some (q, r) => some (.num q, r)
        | none => none

/-- Members of an object after `\x7b` (at least one). -/
def parseMembers : Nat → List Char → Option (Json × List Char)
  | 0, _ => none
  | fuel + 1, l =>
    match skipWs l with
    | '"' :: rest =>
      match parseStringBody rest with
      | some (key, r1) =>
        match skipWs r1 with
        | ':' :: r2 =>
          match parseValue fuel r2 with
          | some (v, r3) =>
            match skipWs r3 with
            | ',' :: r4 =>
              match parseMembers fuel r4 with
              | some (.obj fields, r5) => some (.obj ((⟨key⟩, v) :: fields), r5)
              | _ => none
            | '\x7d' :: r4 => some (.obj [(⟨key⟩, v)], r4)
            | _ => none
          | none => none
        | _ => none
      | none => none
    | _ => none

/-- Elements of an array after `[` (at least one). -/
def parseElems : Nat → List Char → Option (Json × List Char)
  | 0, _ => none
  | fuel + 1, l =>
    match parseValue fuel l with
    | some (v, r1) =>
      match skipWs r1 with
      | ',' :: r2 =>
        match parseElems fuel r2 with
        | some (.arr elems, r3) => some (.arr (v :: elems), r3)
        | _ => none
      | ']' :: r2 => some (.arr [v], r2)
      | _ => none
    | none => none

end

/-- `JSON.parse(text)`: one value, only whitespace around it. -/
def jsonParse (s : String) : Option Json :=
  match parseValue (s.length + 1) s.data with
  | some (v, rest) => if skipWs rest = [] then some v else none
  | none => none

/-- The prefix of `l` up to and including the last occurrence of `ch`
(callers ensure `ch` occurs). -/
def takeToLast (ch : Char) (l : List Char) : List Char :=
  (l.reverse.dropWhile (fun c => c ≠ ch)).reverse

/-- `text.match(/\x7b[\s\S]*\x7d|\[[\s\S]*\]/)`: leftmost opener with a
matching closer after it, greedy to the last such closer. -/
def jsSalvageMatch : List Char → Option (List Char)
  | [] => none
  | c :: rest =>
    if c = '\x7b' ∧ rest.contains '\x7d' then some (c :: takeToLast '\x7d' rest)
    else if c = '[' ∧ rest.contains ']' then some (c :: takeToLast ']' rest)
    else jsSalvageMatch rest

/-- Outcome of the parse-handling tail of `generateObject`: a parsed
object, the `onParseError === "return_raw"` fallback (empty object with
the raw text attached), or the thrown `NonJsonLLMError` (carrying raw
text, usage and the best-effort s3 key). -/
inductive GenObjOutcome where
  | ok (object : Json) (usage : Option LLMUsage)
  | returnRaw (nonJsonText : String) (usage : Option LLMUsage) (s3Key : Option String)
  | nonJsonError (rawText : String) (usage : Option LLMUsage) (s3Key : Option String)
deriving Repr

/-- The `saveErrorToS3` collaborator's outcome as seen through the
`try/catch` at the call site: a thrown error (`Except.error`) is
swallowed and leaves no key; a successful call may return a key (or
`undefined` when no bucket is configured). -/
def s3KeyOf (sink : Except Unit (Option String)) : Option String :=
  match sink with
  | .ok k => k
  | .error _ => none

/-- The response-text handling of `GeminiClient.generateObject`: strict
parse, salvage parse of the regex match, then best-effort error sink and
throw-or-return-raw according to the policy flag. -/
def handleGenerateObjectText (text : String) (usage : Option LLMUsage)
    (onParseErrorReturnRaw : Bool) (sink : Except Unit (Option String)) :
    GenObjOutcome :=
  match jsonParse text with
  | some j => .ok j usage
  | none =>
    match (jsSalvageMatch text.data).bind (fun sub => jsonParse ⟨sub⟩) with
    | some j => .ok j usage
    | none =>
      if onParseErrorReturnRaw then .returnRaw text usage (s3KeyOf sink)
      else .nonJsonError text usage (s3KeyOf sink)

/-- Bracket nesting check (string contents are not interpreted). -/
def bracketStackOk : List Char → List Char → Bool
  | stack, [] => stack.isEmpty
  | stack, c :: rest =>
    if c = '\x7b' ∨ c = '[' then bracketStackOk (c :: stack) rest
    else if c = '\x7d' then
      match stack with
      | '\x7b' :: s => bracketStackOk s rest
      | _ => false
    else if c = ']' then
      match stack with
      | '[' :: s => bracketStackOk s rest
      | _ => false
    else bracketStackOk stack rest

/-- A balanced `\x7b...\x7d` or `[...]` block. -/
def isBalancedBlock (l : List Char) : Bool :=
  ((l.head? = some '\x7b' ∧ l.getLast? = some '\x7d') ∨
    (l.head? = some '[' ∧ l.getLast? = some ']')) ∧ bracketStackOk [] l

/-- All contiguous substrings. -/
def allSubstrings (l : List Char) : List (List Char) :=
  l.tails.flatMap (fun t => (List.range (t.length + 1)).map (fun k => t.take k))

/-- Following the spec's words, for comparison with the code's salvage:
"the largest balanced `\x7b...\x7d`/`[...]` substring" of the response
text (first one found on ties). -/
def specLargestBalanced (s : String) : Option (List Char) :=
  (allSubstrings s.data).foldl
    (fun best c =>
      if isBalancedBlock c then
        match best with
        | none => some c
        | some b => if b.length < c.length then some c else best
      else best) none

/-- Counterexample to C8: the client does not salvage the largest
balanced block; it parses the span from the first `\x7b` to the *last*
`\x7d`.  On the response text `\x7b"a":null\x7d \x7d` strict parsing fails,
the largest balanced block `\x7b"a":null\x7d` parses fine — so the claim
predicts a successful salvage — but the regex span is the whole text,
its parse fails too, and the call throws the typed non-JSON error. -/
theorem generateObject_salvage_counterexample :
    jsonParse "\x7b\"a\":null\x7d \x7d" = none ∧
    specLargestBalanced "\x7b\"a\":null\x7d \x7d" = some ("\x7b\"a\":null\x7d".data) ∧
    jsonParse "\x7b\"a\":null\x7d" = some (.obj [("a", .null)]) ∧
    jsSalvageMatch ("\x7b\"a\":null\x7d \x7d".data) =
      some ("\x7b\"a\":null\x7d \x7d".data) ∧
    handleGenerateObjectText "\x7b\"a\":null\x7d \x7d" none false (.ok none) =
      .nonJsonError "\x7b\"a\":null\x7d \x7d" none none := by
  refine ⟨rfl, rfl, rfl, rfl, rfl⟩

/-- C8 (amended).  `generateObject` parse handling with the salvage
corrected to the code's regex span (first opener to last closer): a
strictly-parsing response returns the object; a response whose regex
span parses returns that object without error; otherwise the raw text
goes to the error sink best-effort — a sink failure is swallowed and
only costs the s3 key — and the call returns the empty-object fallback
annotated with the raw text when the caller opted in, else throws the
typed non-JSON error carrying the raw text and usage. -/
theorem generateObject_parse_handling_amended :
    (∀ (text : String) (usage : Option LLMUsage) (policy : Bool)
        (sink : Except Unit (Option String)) (j : Json),
      jsonParse text = some j →
      handleGenerateObjectText text usage policy sink = .ok j usage) ∧
    (∀ (text : String) (usage : Option LLMUsage) (policy : Bool)
        (sink : Except Unit (Option String)) (sub : List Char) (j : Json),
      jsonParse text = none → jsSalvageMatch text.data = some sub →
      jsonParse ⟨sub⟩ = some j →
      handleGenerateObjectText text usage policy sink = .ok j usage) ∧
    (∀ (text : String) (usage : Option LLMUsage)
        (sink : Except Unit (Option String)),
      jsonParse text = none →
      (jsSalvageMatch text.data).bind (fun sub => jsonParse ⟨sub⟩) = none →
      handleGenerateObjectText text usage true sink =
        .returnRaw text usage (s3KeyOf sink) ∧
      handleGenerateObjectText text usage false sink =
        .nonJsonError text usage (s3KeyOf sink)) := by
  refine ⟨?_, ?_, ?_⟩
  · intro text usage policy sink j h
    unfold handleGenerateObjectText
    rw [h]
  · intro text usage policy sink sub j h hsub hj
    unfold handleGenerateObjectText
    rw [h, hsub]
    have hbind : (some sub).bind (fun sub => jsonParse ⟨sub⟩) = jsonParse ⟨sub⟩ := rfl
    rw [hbind, hj]
  · intro text usage sink h hsalv
    unfold handleGenerateObjectText
    rw [h, hsalv]
    exact ⟨rfl, rfl⟩

/-- Witness for the amended C8: the response `x\x7b"a":null\x7d` fails
strict parsing, its regex span `\x7b"a":null\x7d` parses, and the call
returns that object without error (with a sink that would fail). -/
theorem generateObject_parse_handling_amended_witness :
    handleGenerateObjectText "x\x7b\"a\":null\x7d" none false (.error ()) =
      .ok (.obj [("a", .null)]) none :=
  generateObject_parse_handling_amended.2.1 "x\x7b\"a\":null\x7d" none false
    (.error ()) ("\x7b\"a\":null\x7d".data) (.obj [("a", .null)])
    rfl rfl rfl

/-! ### Construction-time handling of invalid configuration
(packing.ts threshold check; limiters.ts / geminiClient.ts constructors;
BudgetManager feature flags). -/

/-- The RPS limiter of geminiClient.ts: `rate = max(1, floor(rps))`,
`cap = max(1, floor(burst ?? rate))`, starts full, refills `rate/1000`
per ms. -/
structure RpsLimiter where
  tokens : ℚ
  lastMs : Int
  perMs : ℚ
  cap : ℚ
deriving Repr, DecidableEq

/-- `new RpsLimiter(rps, burst?)`. -/
def rpsLimiterInit (now : Int) (rps : ℚ) (burst : Option ℚ) : RpsLimiter :=
  { tokens := ((max 1 ⌊burst.getD ((max 1 ⌊rps⌋ : Int) : ℚ)⌋ : Int) : ℚ)
    lastMs := now
    perMs := ((max 1 ⌊rps⌋ : Int) : ℚ) / 1000
    cap := ((max 1 ⌊burst.getD ((max 1 ⌊rps⌋ : Int) : ℚ)⌋ : Int) : ℚ) }

/-- interface BudgetConfig. -/
structure BudgetConfig where
  rpm : Option ℚ
  rpd : Option ℚ
  tpm : Option ℚ
  strictTpm : Bool
deriving Repr, DecidableEq

/-- BudgetManager state: each limiter exists only when its configured
value is truthy and positive. -/
structure BudgetManager where
  reqPerMin : Option TokenBucket
  reqPerDay : Option DayCounter
  tokensPerMin : Option TokenBucket
  strict : Bool
deriving Repr, DecidableEq

/-- `new BudgetManager(cfg)`: `if (cfg.rpm && cfg.rpm > 0) …` etc. -/
def budgetManagerInit (nowMs : Int) (nowDayMs : Nat) (cfg : BudgetConfig) :
    BudgetManager :=
  { reqPerMin :=
      match cfg.rpm with
      | some r => if 0 < r then some (tokenBucketInit nowMs r) else none
      | none => none
    reqPerDay :=
      match cfg.rpd with
      | some r => if 0 < r then some (dayCounterInit nowDayMs r) else none
      | none => none
    tokensPerMin :=
      match cfg.tpm with
      | some r => if 0 < r then some (tokenBucketInit nowMs r) else none
      | none => none
    strict := cfg.strictTpm }

/-- `get enabled()`: some limiter is configured. -/
def BudgetManager.enabled (m : BudgetManager) : Bool :=
  m.reqPerMin.isSome || m.reqPerDay.isSome || m.tokensPerMin.isSome

/-- Counterexample to C9: the packer does fail fast on a non-positive
threshold, but the rate/budget constructors do NOT fail on non-positive
values — they clamp to a minimum capacity of 1 (`Math.max(1,
Math.floor(...))`) and construction proceeds: `new TokenBucket(0)`,
`new DayCounter(0)` and `new RpsLimiter(0)` all yield working
capacity-1 limiters, and a BudgetManager given only the invalid rpm 0
is merely disabled, not an error. -/
theorem invalid_config_counterexample :
    packIndexSetsByGreedy [] 0 = .error "charThreshold must be a positive number" ∧
    (tokenBucketInit 0 0).cap = 1 ∧ (tokenBucketInit 0 0).tokens = 1 ∧
    (dayCounterInit 0 0).capacity = 1 ∧
    (rpsLimiterInit 0 0 none).cap = 1 ∧
    (budgetManagerInit 0 0 ⟨some 0, none, none, false⟩).enabled = false := by
  refine ⟨rfl, ?_, ?_, ?_, ?_, rfl⟩ <;> norm_num [tokenBucketInit, dayCounterInit,
    rpsLimiterInit]

/-- C9 (amended).  Configuration-error handling: a non-positive
threshold makes `packIndexSetsByGreedy` throw at call time (and a
positive threshold never throws), while invalid (non-positive) rate,
burst or budget values never fail at construction: the TokenBucket,
DayCounter and RpsLimiter constructors clamp their capacity to at least
1, and a BudgetManager whose configured values are all absent or
non-positive simply has every limiter disabled. -/
theorem invalid_config_handling_amended :
    (∀ (ol : List OrderLen) (t : Int), t ≤ 0 →
      packIndexSetsByGreedy ol t = .error "charThreshold must be a positive number") ∧
    (∀ (ol : List OrderLen) (t : Int), 0 < t →
      ∃ packs, packIndexSetsByGreedy ol t = .ok packs) ∧
    (∀ (now : Int) (q : ℚ), (1 : ℚ) ≤ (tokenBucketInit now q).cap) ∧
    (∀ (now : Nat) (q : ℚ), 1 ≤ (dayCounterInit now q).capacity) ∧
    (∀ (now : Int) (q : ℚ) (burst : Option ℚ), (1 : ℚ) ≤ (rpsLimiterInit now q burst).cap) ∧
    (∀ (nowMs : Int) (nowDayMs : Nat) (cfg : BudgetConfig),
      cfg.rpm.getD 0 ≤ 0 → cfg.rpd.getD 0 ≤ 0 → cfg.tpm.getD 0 ≤ 0 →
      (budgetManagerInit nowMs nowDayMs cfg).enabled = false) := by
  refine ⟨?_, ?_, ?_, ?_, ?_, ?_⟩
  · intro ol t ht
    unfold packIndexSetsByGreedy
    rw [if_pos ht]
  · intro ol t ht
    refine ⟨packGo t ol emptyPack, ?_⟩
    unfold packIndexSetsByGreedy
    rw [if_neg (not_le.mpr ht)]
  · intro now q
    show (1 : ℚ) ≤ ((max 1 ⌊q⌋ : Int) : ℚ)
    exact_mod_cast le_max_left 1 ⌊q⌋
  · intro now q
    show 1 ≤ (max 1 ⌊q⌋).toNat
    omega
  · intro now q burst
    show (1 : ℚ) ≤ ((max 1 ⌊burst.getD ((max 1 ⌊q⌋ : Int) : ℚ)⌋ : Int) : ℚ)
    exact_mod_cast le_max_left _ _
  · intro nowMs nowDayMs cfg h1 h2 h3
    unfold budgetManagerInit BudgetManager.enabled
    rcases cfg with ⟨rpm, rpd, tpm, st⟩
    rcases rpm with _ | r1 <;> rcases rpd with _ | r2 <;> rcases tpm with _ | r3 <;>
      simp_all

/-- Witness for the amended C9 at concrete values: threshold −5 throws,
threshold 7 succeeds on a singleton input, and `new TokenBucket(-3)`
clamps to capacity at least 1. -/
theorem invalid_config_handling_amended_witness :
    packIndexSetsByGreedy [⟨0, 1, 2⟩] (-5) =
      .error "charThreshold must be a positive number" ∧
    (∃ packs, packIndexSetsByGreedy [⟨0, 1, 2⟩] 7 = .ok packs) ∧
    (1 : ℚ) ≤ (tokenBucketInit 0 (-3)).cap :=
  ⟨invalid_config_handling_amended.1 [⟨0, 1, 2⟩] (-5) (by norm_num),
    invalid_config_handling_amended.2.1 [⟨0, 1, 2⟩] 7 (by norm_num),
    invalid_config_handling_amended.2.2.1 0 (-3)⟩

end PoliTopics
